import Mathlib

/-!
# go-github-download: release link construction, version resolution, archive extraction

A shallow embedding of `main.go`.  Go strings are modelled by `String`
(the texts handled here are UTF-8), Go `error` values by `Option Error`
(`none` is `nil`), and the two constants `runtime.GOOS` / `runtime.GOARCH`
are parameters of the functions that read them.
-/

namespace GoGithubDownload

/-! ## Library: `strings` and `fmt` -/

/-- Go `strings.HasPrefix(s, pre)`: `len(s) >= len(pre) && s[:len(pre)] == pre`. -/
def HasPrefix (s pre : String) : Bool :=
  decide (pre.data.length ≤ s.data.length) && (s.data.take pre.data.length == pre.data)

/-- Go `strings.TrimPrefix(s, pre)`: `s[len(pre):]` when `s` has the leading
text `pre`, otherwise `s` unchanged.  At most one occurrence is removed. -/
def TrimPrefix (s pre : String) : String :=
  if HasPrefix s pre then ⟨s.data.drop pre.data.length⟩ else s

/-- Rendering of the operands left over when the format is exhausted:
Go prints `%!(EXTRA string=a, string=b)`. -/
def extraOperands (args : List String) : List Char :=
  "%!(EXTRA ".data ++ (", ".intercalate (args.map fun a => "string=" ++ a)).data ++ [')']

/-- The formatting loop of Go `fmt.Sprintf` for operands that are already
texts (a Go `string` under `%v` prints as itself; a `byte` is passed in its
decimal rendering).  Literal characters are copied, `%v` consumes the next
operand (and so does `%s`, which prints a text the same way), `%%` prints a
percent sign; a verb with no operand left prints `%!v(MISSING)`, a trailing
`%` prints `%!(NOVERB)`, and operands that remain at the end are reported by
`extraOperands`.  The formats of this program use no other verb, flag or
width. -/
def sprintfLoop : List Char → List String → List Char
  | [], [] => []
  | [], a :: as => extraOperands (a :: as)
  | c :: fmt, args =>
    if c = '%' then
      match fmt, args with
      | [], _ => "%!(NOVERB)".data ++ sprintfLoop [] args
      | d :: rest, [] =>
        if d = 'v' ∨ d = 's' then '%' :: '!' :: d :: "(MISSING)".data ++ sprintfLoop rest []
        else if d = '%' then '%' :: sprintfLoop rest []
        else c :: sprintfLoop (d :: rest) []
      | d :: rest, a :: as =>
        if d = 'v' ∨ d = 's' then a.data ++ sprintfLoop rest as
        else if d = '%' then '%' :: sprintfLoop rest (a :: as)
        else c :: sprintfLoop (d :: rest) (a :: as)
    else c :: sprintfLoop fmt args

/-- Go `fmt.Sprintf(format, args...)` on text operands. -/
def Sprintf (format : String) (args : List String) : String :=
  ⟨sprintfLoop format.data args⟩

/-! ## Data model (`main.go`, lines 19-41) -/

/-- The `Repo` struct of `main.go`. -/
structure Repo where
  owner : String
  name : String
  deriving DecidableEq, Repr

/-- The method `Repo.String`: `fmt.Sprintf("%v/%v", r.owner, r.name)`. -/
def Repo.String (r : Repo) : String :=
  Sprintf "%v/%v" [r.owner, r.name]

/-- The `DownloadObject` struct of `main.go`: a repository and the name of
the binary. -/
structure DownloadObject where
  repo : Repo
  binary : String
  deriving DecidableEq, Repr

/-! ## `LatestDownloadLink` (`main.go`, lines 50-57) -/

/-- The local `filename` of `LatestDownloadLink`: the version with its
leading `v` trimmed, formatted with the binary name and the platform pair. -/
def downloadFilename (GOOS GOARCH : String) (downloadable : DownloadObject)
    (version : String) : String :=
  let versionStringVTrimmed := TrimPrefix version "v"
  Sprintf "%v_%v_%v_%v.tar.gz" [downloadable.binary, versionStringVTrimmed, GOOS, GOARCH]

/-- The function `LatestDownloadLink` of `main.go`; `GOOS` and `GOARCH` stand
for `runtime.GOOS` and `runtime.GOARCH`. -/
def LatestDownloadLink (GOOS GOARCH : String) (downloadable : DownloadObject)
    (version : String) : String :=
  let filename := downloadFilename GOOS GOARCH downloadable version
  Sprintf "https://github.com/%v/%v/releases/download/%v/%v"
    [downloadable.repo.owner, downloadable.repo.name, version, filename]

/-- The text after the last `/` of a character sequence (all of it when there
is no `/`): the last segment of a URL path. -/
def lastSegmentChars : List Char → List Char
  | [] => []
  | c :: cs => if cs.contains '/' then lastSegmentChars cs
               else if c = '/' then cs else c :: cs

/-- The text in front of the last `/` of a character sequence (empty when
there is no `/`). -/
def beforeLastSlash : List Char → List Char
  | [] => []
  | c :: cs => if cs.contains '/' then c :: beforeLastSlash cs else []

/-- The filename segment of a link: the text after its last `/`. -/
def filenameSegment (link : String) : String :=
  ⟨lastSegmentChars link.data⟩

/-- The path segment in front of the filename segment of a link: the text
between its last two `/`.  In a release download link this is the place of
the release tag. -/
def tagSegment (link : String) : String :=
  ⟨lastSegmentChars (beforeLastSlash link.data)⟩

/-! ## Library: `encoding/json`

`json.Unmarshal` first checks the whole input with the scanner of
`encoding/json` (a state machine fed one character at a time, with a stack
of open arrays and objects) and only then decodes.  The machine below is that
scanner, extended to record what the decoder of a struct of scalar fields
reads: the members of the top-level object, in order, with the kind of each
member value and the text of the scalar ones. -/

/-- A member value as the decoder of a scalar field sees it.  A number keeps
its literal; arrays and objects are skipped as a whole by such a decoder. -/
inductive Value where
  | null
  | bool (b : Bool)
  | number (lit : String)
  | string (s : String)
  | array
  | object
  deriving DecidableEq, Repr

/-- A well-formed JSON text: an object with its members in input order, or
any other value. -/
inductive Document where
  | object (members : List (String × Value))
  | other (v : Value)
  deriving DecidableEq, Repr

/-- The scanner's stack entries: `parseObjectKey`, `parseObjectValue`,
`parseArrayValue`. -/
inductive ParseState where
  | objectKey
  | objectValue
  | arrayValue
  deriving DecidableEq, Repr

/-- The scanner's step functions (`stateBeginValue`, `stateInString`, ...).
`inStringEscU k` has read `k` of the four hexadecimal digits of a `\u`
escape; `literal rest v` is inside `true`, `false` or `null` with `rest`
still to come. -/
inductive Step where
  | beginValue
  | beginValueOrEmpty
  | beginStringOrEmpty
  | beginString
  | endValue
  | endTop
  | inString
  | inStringEsc
  | inStringEscU (k : Nat)
  | neg
  | zero
  | one
  | dot
  | dot0
  | e
  | eSign
  | e0
  | literal (rest : List Char) (v : Value)
  deriving DecidableEq, Repr

/-- The limit `maxNestingDepth` of `encoding/json`. -/
def maxNestingDepth : Nat := 10000

/-- The double quote character. -/
def quoteChar : Char := Char.ofNat 34

/-- The backslash character. -/
def backslashChar : Char := Char.ofNat 92

/-- The opening brace. -/
def lbraceChar : Char := Char.ofNat 123

/-- The closing brace. -/
def rbraceChar : Char := Char.ofNat 125

/-- The opening square bracket. -/
def lbracketChar : Char := Char.ofNat 91

/-- The closing square bracket. -/
def rbracketChar : Char := Char.ofNat 93

/-- The Unicode replacement character U+FFFD. -/
def replacementChar : Char := Char.ofNat 0xFFFD

/-- JSON white space (`isSpace` of the scanner): space, tab, CR, LF. -/
def isSpace (c : Char) : Bool :=
  c.toNat = 32 || c.toNat = 9 || c.toNat = 13 || c.toNat = 10

/-- A decimal digit. -/
def isDigit (c : Char) : Bool :=
  decide (48 ≤ c.toNat) && decide (c.toNat ≤ 57)

/-- The value of a hexadecimal digit, in either case. -/
def hexValue (c : Char) : Option Nat :=
  if 48 ≤ c.toNat ∧ c.toNat ≤ 57 then some (c.toNat - 48)
  else if 97 ≤ c.toNat ∧ c.toNat ≤ 102 then some (c.toNat - 87)
  else if 65 ≤ c.toNat ∧ c.toNat ≤ 70 then some (c.toNat - 55)
  else none

/-- Scanner and decoder state. -/
structure Scanner where
  step : Step
  parseState : List ParseState
  text : List Char
  hex : Nat
  surrogate : Option Nat
  key : String
  members : List (String × Value)
  top : Option Value
  deriving Repr

/-- The state before the first character: `stateBeginValue`, empty stack. -/
def Scanner.init : Scanner :=
  { step := .beginValue, parseState := [], text := [], hex := 0, surrogate := none,
    key := "", members := [], top := none }

/-- A high surrogate left without its partner decodes to U+FFFD. -/
def Scanner.flush (s : Scanner) : Scanner :=
  match s.surrogate with
  | some _ => { s with text := replacementChar :: s.text, surrogate := none }
  | none => s

/-- Append a decoded character to the string being read. -/
def Scanner.emit (s : Scanner) (c : Char) : Scanner :=
  let s := s.flush
  { s with text := c :: s.text }

/-- A complete `\uXXXX` escape with value `v` (the decoding of `unquote`): a
high surrogate waits for a low one and the pair is combined; a surrogate
without partner gives U+FFFD. -/
def Scanner.emitUnit (s : Scanner) (v : Nat) : Scanner :=
  match s.surrogate with
  | some hi =>
    if 0xDC00 ≤ v ∧ v < 0xE000 then
      { s with text := Char.ofNat (0x10000 + (hi - 0xD800) * 0x400 + (v - 0xDC00)) :: s.text,
               surrogate := none }
    else
      let s := s.flush
      if 0xD800 ≤ v ∧ v < 0xDC00 then { s with surrogate := some v }
      else { s with text := Char.ofNat v :: s.text }
  | none =>
    if 0xD800 ≤ v ∧ v < 0xDC00 then { s with surrogate := some v }
    else if 0xDC00 ≤ v ∧ v < 0xE000 then { s with text := replacementChar :: s.text }
    else { s with text := Char.ofNat v :: s.text }

/-- A scalar value is complete: it is the whole document, a key of the
top-level object, a member value of the top-level object, or nested deeper
(where the decoder of scalar fields does not look). -/
def Scanner.endScalar (s : Scanner) (v : Value) : Scanner :=
  let s := { s with step := .endValue, text := [] }
  match s.parseState with
  | [] => { s with top := some v }
  | [.objectKey] =>
    match v with
    | .string k => { s with key := k }
    | _ => s
  | [.objectValue] => { s with members := (s.key, v) :: s.members }
  | _ => s

/-- An array or object opens (`pushParseState`): record it where the decoder
looks, push the stack, and fail beyond `maxNestingDepth`. -/
def Scanner.push (s : Scanner) (v : Value) (ps : ParseState) (succ : Step) : Option Scanner :=
  let s := match s.parseState with
    | [] => { s with top := some v }
    | [.objectValue] => { s with members := (s.key, v) :: s.members }
    | _ => s
  if s.parseState.length + 1 ≤ maxNestingDepth then
    some { s with parseState := ps :: s.parseState, step := succ }
  else none

/-- An array or object closes (`popParseState`). -/
def Scanner.pop (s : Scanner) : Scanner :=
  let rest := s.parseState.tail
  { s with parseState := rest, step := if rest.isEmpty then .endTop else .endValue }

/-- The scanner's `stateEndValue`: after a value, by the innermost open
container. -/
def stateEndValue (s : Scanner) (c : Char) : Option Scanner :=
  match s.parseState with
  | [] => if isSpace c then some { s with step := .endTop } else none
  | ps :: rest =>
    if isSpace c then some { s with step := .endValue }
    else
      match ps with
      | .objectKey =>
        if c = ':' then some { s with parseState := .objectValue :: rest, step := .beginValue }
        else none
      | .objectValue =>
        if c = ',' then some { s with parseState := .objectKey :: rest, step := .beginString }
        else if c = rbraceChar then some s.pop
        else none
      | .arrayValue =>
        if c = ',' then some { s with step := .beginValue }
        else if c = rbracketChar then some s.pop
        else none

/-- The scanner's `stateBeginValue`. -/
def stateBeginValue (s : Scanner) (c : Char) : Option Scanner :=
  if isSpace c then some s
  else if c = lbraceChar then s.push .object .objectKey .beginStringOrEmpty
  else if c = lbracketChar then s.push .array .arrayValue .beginValueOrEmpty
  else if c = quoteChar then some { s with step := .inString, text := [], surrogate := none }
  else if c = '-' then some { s with step := .neg, text := [c] }
  else if c = '0' then some { s with step := .zero, text := [c] }
  else if c = 't' then some { s with step := .literal ['r', 'u', 'e'] (.bool true) }
  else if c = 'f' then some { s with step := .literal ['a', 'l', 's', 'e'] (.bool false) }
  else if c = 'n' then some { s with step := .literal ['u', 'l', 'l'] .null }
  else if isDigit c then some { s with step := .one, text := [c] }
  else none

/-- The end of a number literal: the character that ends it is handled by
`stateEndValue`. -/
def endNumber (s : Scanner) (c : Char) : Option Scanner :=
  stateEndValue (s.endScalar (.number ⟨s.text.reverse⟩)) c

/-- One step of the scanner on the character `c`; `none` is a syntax error. -/
def Scanner.next (s : Scanner) (c : Char) : Option Scanner :=
  match s.step with
  | .beginValue => stateBeginValue s c
  | .beginValueOrEmpty =>
    if isSpace c then some s
    else if c = rbracketChar then stateEndValue s c
    else stateBeginValue s c
  | .beginStringOrEmpty =>
    if isSpace c then some s
    else if c = rbraceChar then
      stateEndValue { s with parseState := .objectValue :: s.parseState.tail } c
    else if c = quoteChar then some { s with step := .inString, text := [], surrogate := none }
    else none
  | .beginString =>
    if isSpace c then some s
    else if c = quoteChar then some { s with step := .inString, text := [], surrogate := none }
    else none
  | .endValue => stateEndValue s c
  | .endTop => if isSpace c then some s else none
  | .inString =>
    if c = quoteChar then
      let s := s.flush
      some (s.endScalar (.string ⟨s.text.reverse⟩))
    else if c = backslashChar then some { s with step := .inStringEsc }
    else if c.toNat < 32 then none
    else some (s.emit c)
  | .inStringEsc =>
    if c = 'b' then some { s.emit (Char.ofNat 8) with step := .inString }
    else if c = 'f' then some { s.emit (Char.ofNat 12) with step := .inString }
    else if c = 'n' then some { s.emit (Char.ofNat 10) with step := .inString }
    else if c = 'r' then some { s.emit (Char.ofNat 13) with step := .inString }
    else if c = 't' then some { s.emit (Char.ofNat 9) with step := .inString }
    else if c = backslashChar ∨ c = '/' ∨ c = quoteChar then
      some { s.emit c with step := .inString }
    else if c = 'u' then some { s with step := .inStringEscU 0, hex := 0 }
    else none
  | .inStringEscU k =>
    match hexValue c with
    | none => none
    | some h =>
      let v := s.hex * 16 + h
      if k < 3 then some { s with step := .inStringEscU (k + 1), hex := v }
      else some { s.emitUnit v with step := .inString, hex := 0 }
  | .neg =>
    if c = '0' then some { s with step := .zero, text := c :: s.text }
    else if isDigit c then some { s with step := .one, text := c :: s.text }
    else none
  | .one =>
    if isDigit c then some { s with text := c :: s.text }
    else if c = '.' then some { s with step := .dot, text := c :: s.text }
    else if c = 'e' ∨ c = 'E' then some { s with step := .e, text := c :: s.text }
    else endNumber s c
  | .zero =>
    if c = '.' then some { s with step := .dot, text := c :: s.text }
    else if c = 'e' ∨ c = 'E' then some { s with step := .e, text := c :: s.text }
    else endNumber s c
  | .dot =>
    if isDigit c then some { s with step := .dot0, text := c :: s.text } else none
  | .dot0 =>
    if isDigit c then some { s with text := c :: s.text }
    else if c = 'e' ∨ c = 'E' then some { s with step := .e, text := c :: s.text }
    else endNumber s c
  | .e =>
    if c = '+' ∨ c = '-' then some { s with step := .eSign, text := c :: s.text }
    else if isDigit c then some { s with step := .e0, text := c :: s.text }
    else none
  | .eSign =>
    if isDigit c then some { s with step := .e0, text := c :: s.text } else none
  | .e0 =>
    if isDigit c then some { s with text := c :: s.text } else endNumber s c
  | .literal rest v =>
    match rest with
    | [] => none
    | [x] => if c = x then some (s.endScalar v) else none
    | x :: more => if c = x then some { s with step := .literal more v } else none

/-- Feed a character sequence to the scanner, stopping at the first error. -/
def Scanner.run (s : Scanner) : List Char → Option Scanner
  | [] => some s
  | c :: cs =>
    match s.next c with
    | none => none
    | some s1 => s1.run cs

/-- The scanner's `eof`: the input is complete when the top-level value has
ended, possibly after one more space (which ends a top-level number). -/
def Scanner.eof (s : Scanner) : Option Scanner :=
  if s.step = .endTop then some s
  else
    match s.next ' ' with
    | some s1 => if s1.step = .endTop then some s1 else none
    | none => none

/-- Scan a whole text: `none` when it is not well-formed JSON (a
`*json.SyntaxError`), otherwise what the decoder reads of it. -/
def scanJSON (data : String) : Option Document :=
  match Scanner.init.run data.data with
  | none => none
  | some s =>
    match s.eof with
    | none => none
    | some s1 =>
      match s1.top with
      | some .object => some (.object s1.members.reverse)
      | some v => some (.other v)
      | none => none

/-- Go `error` values of the decoder: a `*json.SyntaxError`, or a
`*json.UnmarshalTypeError` naming the JSON value and the field (or type) it
was meant for. -/
inductive DecodeError where
  | syntaxError
  | unmarshalTypeError (value : String) (target : String)
  deriving DecidableEq, Repr

/-- The struct `ReleasesJSONResonse` of `main.go` (lines 33-41). -/
structure ReleasesJSONResonse where
  ID : Int
  TagName : String
  UpdateURL : String
  UpdateAuthenticityToken : String
  DeleteURL : String
  DeleteAuthenticityToken : String
  EditURL : String
  deriving DecidableEq, Repr

/-- The zero value of the struct (`var releasesResponse ReleasesJSONResonse`). -/
def ReleasesJSONResonse.zero : ReleasesJSONResonse :=
  { ID := 0, TagName := "", UpdateURL := "", UpdateAuthenticityToken := "",
    DeleteURL := "", DeleteAuthenticityToken := "", EditURL := "" }

/-- The fields of `ReleasesJSONResonse`. -/
inductive Field where
  | ID
  | TagName
  | UpdateURL
  | UpdateAuthenticityToken
  | DeleteURL
  | DeleteAuthenticityToken
  | EditURL
  deriving DecidableEq, Repr

/-- The fields in declaration order, each with the name of its `json` tag. -/
def jsonFields : List (String × Field) :=
  [("id", .ID), ("tag_name", .TagName), ("update_url", .UpdateURL),
   ("update_authenticity_token", .UpdateAuthenticityToken), ("delete_url", .DeleteURL),
   ("delete_authenticity_token", .DeleteAuthenticityToken), ("edit_url", .EditURL)]

/-- Case folding of one character as `encoding/json` folds names: an ASCII
letter goes to its capital, and so do the two characters outside ASCII whose
simple case folding meets ASCII, the long s (U+017F) and the Kelvin sign
(U+212A).  Every other character outside ASCII folds to a character outside
ASCII and is kept as it is; the field names compared against are ASCII. -/
def foldChar (c : Char) : Char :=
  if 97 ≤ c.toNat ∧ c.toNat ≤ 122 then Char.ofNat (c.toNat - 32)
  else if c.toNat = 0x17F then 'S'
  else if c.toNat = 0x212A then 'K'
  else c

/-- The folded form of a name (`foldName`). -/
def foldName (name : String) : List Char :=
  name.data.map foldChar

/-- The field an object key decodes into.  The documentation of
`json.Unmarshal`: "Unmarshal matches incoming object keys to the keys used by
Marshal (either the struct field name or its tag), preferring an exact match
but also accepting a case-insensitive match."  The preference is among the
fields, for one key: the field whose name is exactly the key is taken, and
otherwise the first field whose name equals the key when letter case is
ignored. -/
def findField (key : String) : Option Field :=
  match jsonFields.find? (fun f => f.1 == key) with
  | some f => some f.2
  | none => (jsonFields.find? (fun f => foldName f.1 == foldName key)).map (fun f => f.2)

/-- The value of a nonempty sequence of decimal digits. -/
def parseDigits : List Char → Option Nat
  | [] => none
  | c :: cs =>
    (c :: cs).foldlM (fun acc d => if isDigit d then some (acc * 10 + (d.toNat - 48)) else none) 0

/-- Go `strconv.ParseInt(lit, 10, 64)` on a JSON number literal, followed by
the overflow check of the `int` field (`int` taken 64 bits wide): an optional
minus sign and decimal digits, within range. -/
def ParseInt (lit : String) : Option Int :=
  let signed : Option Int :=
    match lit.data with
    | '-' :: ds => (parseDigits ds).map (fun n => - (n : Int))
    | ds => (parseDigits ds).map (fun n => (n : Int))
  signed.filter (fun n => decide (-(2 : Int) ^ 63 ≤ n) && decide (n < (2 : Int) ^ 63))

/-- The name of a JSON value in an `UnmarshalTypeError`. -/
def Value.describe : Value → String
  | .null => "null"
  | .bool _ => "bool"
  | .number _ => "number"
  | .string _ => "string"
  | .array => "array"
  | .object => "object"

/-- Assign a text to a string field. -/
def ReleasesJSONResonse.setString (r : ReleasesJSONResonse) (f : Field) (s : String) :
    ReleasesJSONResonse :=
  match f with
  | .ID => r
  | .TagName => { r with TagName := s }
  | .UpdateURL => { r with UpdateURL := s }
  | .UpdateAuthenticityToken => { r with UpdateAuthenticityToken := s }
  | .DeleteURL => { r with DeleteURL := s }
  | .DeleteAuthenticityToken => { r with DeleteAuthenticityToken := s }
  | .EditURL => { r with EditURL := s }

/-- Decode one member value into its field: a JSON `null` leaves the field as
it is; a value of the field's kind is stored; any other value leaves the
field as it is and is reported as an `UnmarshalTypeError`. -/
def storeField (r : ReleasesJSONResonse) (name : String) (f : Field) (v : Value) :
    ReleasesJSONResonse × Option DecodeError :=
  match v with
  | .null => (r, none)
  | .string s =>
    if f = .ID then (r, some (.unmarshalTypeError v.describe name))
    else (r.setString f s, none)
  | .number lit =>
    if f = .ID then
      match ParseInt lit with
      | some n => ({ r with ID := n }, none)
      | none => (r, some (.unmarshalTypeError ("number " ++ lit) name))
    else (r, some (.unmarshalTypeError v.describe name))
  | _ => (r, some (.unmarshalTypeError v.describe name))

/-- Decode the members of an object in input order (the loop of the
decoder's `object` method).  A key that matches no field is skipped; the
first error is kept (`saveError`) and decoding goes on.  Each member is
stored as it is met, so of two members for the same field the later one
overwrites the earlier one, whichever of them matches the name exactly. -/
def decodeMembers (r : ReleasesJSONResonse) (err : Option DecodeError) :
    List (String × Value) → ReleasesJSONResonse × Option DecodeError
  | [] => (r, err)
  | (key, v) :: rest =>
    match findField key with
    | none => decodeMembers r err rest
    | some f =>
      let res := storeField r key f v
      decodeMembers res.1 (err.orElse (fun _ => res.2)) rest

/-- Go `json.Unmarshal(data, &r)` for `r` of type `ReleasesJSONResonse`: the
struct after the call and the returned error.  Input that is not well-formed
JSON is rejected before anything is decoded; a top-level `null` changes
nothing; any other value that is not an object is a type error. -/
def Unmarshal (data : String) (r : ReleasesJSONResonse) :
    ReleasesJSONResonse × Option DecodeError :=
  match scanJSON data with
  | none => (r, some .syntaxError)
  | some (.other .null) => (r, none)
  | some (.other v) => (r, some (.unmarshalTypeError v.describe "ReleasesJSONResonse"))
  | some (.object members) => decodeMembers r none members

/-! ## `GetLatestVersionString` (`main.go`, lines 61-86) -/

/-- A Go `error` of the network side, by its message, or an error of the
decoder. -/
inductive Error where
  | message (msg : String)
  | decode (e : DecodeError)
  deriving DecidableEq, Repr

/-- The result of `url.Parse`. -/
structure URL where
  text : String
  deriving DecidableEq, Repr

/-- The fields of `http.Request` that `GetLatestVersionString` sets. -/
structure Request where
  Method : String
  URL : URL
  Header : List (String × List String)
  deriving DecidableEq, Repr

/-- The part of `http.Response` that is read: `Body` is what
`io.ReadAll(resp.Body)` returns, the whole body or an error. -/
structure Response where
  Body : Except Error String

/-- The network as the function meets it: `Parse` is `url.Parse`, `Do` is
`netClient.Do` (a client with a ten second timeout; a timeout is one of the
errors `Do` can return). -/
structure Network where
  Parse : String → Except Error URL
  Do : Request → Except Error Response

/-- The function `GetLatestVersionString` of `main.go`: the returned tag and
error.  The result of `json.Unmarshal` is dropped, as in the source. -/
def GetLatestVersionString (net : Network) (repo : Repo) : String × Option Error :=
  let latestRelease := Sprintf "https://github.com/%v/%v/releases/latest" [repo.owner, repo.name]
  match net.Parse latestRelease with
  | .error err => ("", some err)
  | .ok latestReleaseUrl =>
    let req : Request :=
      { Method := "GET", URL := latestReleaseUrl, Header := [("Accept", ["application/json"])] }
    match net.Do req with
    | .error err => ("", some err)
    | .ok resp =>
      match resp.Body with
      | .error err => ("", some err)
      | .ok buf =>
        let releasesResponse := (Unmarshal buf ReleasesJSONResonse.zero).1
        (releasesResponse.TagName, none)

/-- A network on which every address parses and every request is answered
with the body `body`. -/
def Network.serving (body : String) : Network :=
  { Parse := fun s => .ok ⟨s⟩, Do := fun _ => .ok ⟨.ok body⟩ }

/-! ## The filesystem

The working directory as `os.Mkdir`, `os.Create` and the writes of `io.Copy`
see it: a name either is free or holds a directory or a regular file.  Names
are taken as the archive gives them, byte for byte, and a name is an object of
its own: links between names and the relation of a name to its parent
directory are outside the model.  Bytes are natural numbers. -/

/-- What a name holds: a directory with its permission bits, or a regular
file with its permission bits and content.  Permission bits are the ones
passed to the call that made the node (before the process umask). -/
inductive Node where
  | dir (perm : Nat)
  | file (perm : Nat) (content : List Nat)
  deriving DecidableEq, Repr

/-- A filesystem state. -/
def FileSystem : Type := String → Option Node

/-- The filesystem with nothing in it. -/
def FileSystem.empty : FileSystem := fun _ => none

/-- The state with `name` holding `node`. -/
def FileSystem.set (fs : FileSystem) (name : String) (node : Node) : FileSystem :=
  fun n => if n = name then some node else fs n

/-- Go `os.Mkdir(name, perm)`: fails when the name is taken (by a directory
or by a file), otherwise makes a directory with the given permission bits. -/
def Mkdir (fs : FileSystem) (name : String) (perm : Nat) : Except String FileSystem :=
  match fs name with
  | some _ => .error (Sprintf "mkdir %v: file exists" [name])
  | none => .ok (fs.set name (.dir perm))

/-- Go `os.Create(name)`, that is `OpenFile(name, O_RDWR|O_CREATE|O_TRUNC,
0666)`: fails on a directory, truncates an existing file (which keeps its
permission bits), and makes an empty file with bits `0o666` on a free name. -/
def Create (fs : FileSystem) (name : String) : Except String FileSystem :=
  match fs name with
  | some (.dir _) => .error (Sprintf "open %v: is a directory" [name])
  | some (.file perm _) => .ok (fs.set name (.file perm []))
  | none => .ok (fs.set name (.file 0o666 []))

/-- The writes of `io.Copy(outFile, ...)` through a handle fresh from
`os.Create`: the bytes go to the file from offset zero on. -/
def Write (fs : FileSystem) (name : String) (data : List Nat) : FileSystem :=
  match fs name with
  | some (.file perm content) => fs.set name (.file perm (data ++ content.drop data.length))
  | _ => fs

/-! ## `ExtractTarGz` (`main.go`, lines 116-156) -/

/-- The fields of `tar.Header` that are read. -/
structure Header where
  Typeflag : Nat
  Name : String
  deriving DecidableEq, Repr

/-- Go `tar.TypeReg`, the byte `'0'`. -/
def TypeReg : Nat := 48

/-- Go `tar.TypeDir`, the byte `'5'`. -/
def TypeDir : Nat := 53

/-- One entry as `tarReader` delivers it: the header returned by `Next()`,
the payload bytes that reading the entry yields, and the error that ends the
reading, if any (`none` when the payload is read in full). -/
structure Entry where
  header : Header
  payload : List Nat
  readErr : Option String
  deriving DecidableEq, Repr

/-- The input stream as the two readers deliver it: the error of
`gzip.NewReader` on its first bytes (`none` when the framing is valid), the
entries successive calls of `tarReader.Next()` return, and how the sequence
ends (`none` is `io.EOF`, `some` is a failing `Next()`). -/
structure ArchiveStream where
  newReaderErr : Option String
  entries : List Entry
  nextErr : Option String
  deriving DecidableEq, Repr

/-- How `ExtractTarGz` ends: it returns, or `log.Fatal` / `log.Fatalf` ends
the process with a message.  Either way the filesystem is left in a state. -/
inductive Outcome where
  | returned (fs : FileSystem)
  | fatal (msg : String) (fs : FileSystem)

/-- The filesystem state at the end. -/
def Outcome.fs : Outcome → FileSystem
  | .returned fs => fs
  | .fatal _ fs => fs

/-- Whether the function returned. -/
def Outcome.isReturned : Outcome → Bool
  | .returned _ => true
  | .fatal _ _ => false

/-- The `switch header.Typeflag` of the loop body on one entry: the new state,
or the fatal message with the state at that point. -/
def applyEntry (fs : FileSystem) (e : Entry) : Except (String × FileSystem) FileSystem :=
  if e.header.Typeflag = TypeDir then
    match Mkdir fs e.header.Name 0o755 with
    | .error err => .error (Sprintf "ExtractTarGz: Mkdir() failed: %s" [err], fs)
    | .ok fs1 => .ok fs1
  else if e.header.Typeflag = TypeReg then
    match Create fs e.header.Name with
    | .error err => .error (Sprintf "ExtractTarGz: Create() failed: %s" [err], fs)
    | .ok fs1 =>
      let fs2 := Write fs1 e.header.Name e.payload
      match e.readErr with
      | some err => .error (Sprintf "ExtractTarGz: Copy() failed: %s" [err], fs2)
      | none => .ok fs2
  else
    .error (Sprintf "ExtractTarGz: uknown type: %v in %v"
      [toString e.header.Typeflag, e.header.Name], fs)

/-- The `for` loop of `ExtractTarGz` over what `tarReader.Next()` returns. -/
def extractLoop (nextErr : Option String) : List Entry → FileSystem → Outcome
  | [], fs =>
    match nextErr with
    | none => .returned fs
    | some err => .fatal (Sprintf "ExtractTarGz: Next() failed: %s" [err]) fs
  | e :: rest, fs =>
    match applyEntry fs e with
    | .error (msg, fs1) => .fatal msg fs1
    | .ok fs1 => extractLoop nextErr rest fs1

/-- The function `ExtractTarGz` of `main.go`, run on the stream `s` in the
filesystem state `fs`. -/
def ExtractTarGz (s : ArchiveStream) (fs : FileSystem) : Outcome :=
  match s.newReaderErr with
  | some _ => .fatal "ExtractTarGz: NewReader failed" fs
  | none => extractLoop s.nextErr s.entries fs

/-- The entries applied one after the other, each without error: the state
reached, or `none` as soon as one entry fails. -/
def applyAll (fs : FileSystem) : List Entry → Option FileSystem
  | [] => some fs
  | e :: rest =>
    match applyEntry fs e with
    | .error _ => none
    | .ok fs1 => applyAll fs1 rest

/-- The payload of the last regular-file entry named `name`, if there is one. -/
def lastPayload (name : String) (entries : List Entry) : Option (List Nat) :=
  ((entries.filter (fun e => e.header.Typeflag = TypeReg ∧ e.header.Name = name)).getLast?).map
    (fun e => e.payload)

/-! ## Lemmas on `fmt.Sprintf` and the link -/

theorem trimPrefix_v (version : String) :
    TrimPrefix version "v" = (match version.data with
      | 'v' :: rest => String.mk rest
      | _ => version) := by
  rcases version with ⟨cs⟩
  cases cs with
  | nil => simp [TrimPrefix, HasPrefix]
  | cons c cs =>
    by_cases h : c = 'v'
    · subst h; simp [TrimPrefix, HasPrefix]
    · simp [TrimPrefix, HasPrefix, h]

theorem trimPrefix_v_append (w : String) : TrimPrefix ("v" ++ w) "v" = w := by
  rw [trimPrefix_v]
  rfl

theorem trimPrefix_not_v (w : String) (hw : w.data.head? ≠ some 'v') : TrimPrefix w "v" = w := by
  rw [trimPrefix_v]
  rcases w with ⟨cs⟩
  cases cs with
  | nil => rfl
  | cons c cs =>
    have hc : c ≠ 'v' := by simpa using hw
    split
    · rename_i rest heq
      simp at heq
      exact absurd heq.1 hc
    · rfl

theorem link_eq (owner name binary version os arch : String) :
    LatestDownloadLink os arch ⟨⟨owner, name⟩, binary⟩ version =
      "https://github.com/" ++ owner ++ "/" ++ name ++ "/releases/download/" ++ version ++ "/"
        ++ binary ++ "_" ++ TrimPrefix version "v" ++ "_" ++ os ++ "_" ++ arch ++ ".tar.gz" := by
  apply String.ext
  simp [LatestDownloadLink, downloadFilename, Sprintf, sprintfLoop]

theorem lastSegmentChars_append (a b : List Char) (hb : '/' ∉ b) :
    lastSegmentChars (a ++ '/' :: b) = b := by
  induction a with
  | nil => simp [lastSegmentChars, hb]
  | cons c a ih => simp [lastSegmentChars, ih]

theorem beforeLastSlash_append (a b : List Char) (hb : '/' ∉ b) :
    beforeLastSlash (a ++ '/' :: b) = a := by
  induction a with
  | nil => simp [beforeLastSlash, hb]
  | cons c a ih => simp [beforeLastSlash, ih]

theorem link_data (os arch : String) (d : DownloadObject) (version : String) :
    (LatestDownloadLink os arch d version).data =
      (("https://github.com/" ++ d.repo.owner ++ "/" ++ d.repo.name ++ "/releases/download").data
        ++ '/' :: version.data) ++ '/' :: (downloadFilename os arch d version).data := by
  simp [LatestDownloadLink, Sprintf, sprintfLoop]

theorem filename_data (os arch : String) (d : DownloadObject) (version : String) :
    (downloadFilename os arch d version).data =
      (d.binary ++ "_" ++ TrimPrefix version "v" ++ "_" ++ os ++ "_" ++ arch ++ ".tar.gz").data := by
  simp [downloadFilename, Sprintf, sprintfLoop]

theorem filenameSegment_link (os arch : String) (d : DownloadObject) (version : String)
    (hb : '/' ∉ d.binary.data) (hv : '/' ∉ (TrimPrefix version "v").data)
    (hos : '/' ∉ os.data) (harch : '/' ∉ arch.data) :
    filenameSegment (LatestDownloadLink os arch d version) =
      d.binary ++ "_" ++ TrimPrefix version "v" ++ "_" ++ os ++ "_" ++ arch ++ ".tar.gz" := by
  apply String.ext
  simp only [filenameSegment, link_data]
  rw [lastSegmentChars_append]
  · exact filename_data os arch d version
  · rw [filename_data]; simp [hb, hv, hos, harch]

theorem tagSegment_link (os arch : String) (d : DownloadObject) (version : String)
    (hb : '/' ∉ d.binary.data) (hv : '/' ∉ version.data)
    (hv2 : '/' ∉ (TrimPrefix version "v").data)
    (hos : '/' ∉ os.data) (harch : '/' ∉ arch.data) :
    tagSegment (LatestDownloadLink os arch d version) = version := by
  apply String.ext
  simp only [tagSegment, link_data]
  rw [beforeLastSlash_append, lastSegmentChars_append]
  · exact hv
  · rw [filename_data]; simp [hb, hv2, hos, harch]

/-! ## `LatestDownloadLink` -/

/-- C1: for every owner, repository name, binary name, version and platform
pair, `LatestDownloadLink` returns the address under `https://github.com/`
made of owner, name, `/releases/download/`, the version as given, and the
file name `binary_stripped_os_arch.tar.gz`, where `stripped` is the version
without one leading `v`; for `Guerrilla-Interactive`, `ngo`, `ngo`, `v1.1.0`,
`linux`, `arm64` this is the address given in the source comment. -/
theorem LatestDownloadLink_format (owner name binary version os arch : String) :
    LatestDownloadLink os arch ⟨⟨owner, name⟩, binary⟩ version =
      "https://github.com/" ++ owner ++ "/" ++ name ++ "/releases/download/" ++ version ++ "/"
        ++ binary ++ "_"
        ++ (match version.data with
            | 'v' :: rest => String.mk rest
            | _ => version)
        ++ "_" ++ os ++ "_" ++ arch ++ ".tar.gz"
    ∧ LatestDownloadLink "linux" "arm64" ⟨⟨"Guerrilla-Interactive", "ngo"⟩, "ngo"⟩ "v1.1.0" =
      "https://github.com/Guerrilla-Interactive/ngo/releases/download/v1.1.0/ngo_1.1.0_linux_arm64.tar.gz" := by
  refine ⟨?_, by decide⟩
  rw [link_eq, trimPrefix_v]

/-- C2, as stated, fails on a version that contains `/`: for the version
`release/1.0`, which does not start with `v`, the text after the last `/` of
the link is `1.0_linux_arm64.tar.gz`, which is not the file name and does not
hold the version, and the segment in front of it is `ngo_release`, not the
version. -/
theorem LatestDownloadLink_slash_in_version :
    "release/1.0".data.head? ≠ some 'v'
    ∧ filenameSegment
        (LatestDownloadLink "linux" "arm64" ⟨⟨"Guerrilla-Interactive", "ngo"⟩, "ngo"⟩ "release/1.0")
      = "1.0_linux_arm64.tar.gz"
    ∧ filenameSegment
        (LatestDownloadLink "linux" "arm64" ⟨⟨"Guerrilla-Interactive", "ngo"⟩, "ngo"⟩ "release/1.0")
      ≠ "ngo_release/1.0_linux_arm64.tar.gz"
    ∧ tagSegment
        (LatestDownloadLink "linux" "arm64" ⟨⟨"Guerrilla-Interactive", "ngo"⟩, "ngo"⟩ "release/1.0")
      = "ngo_release"
    ∧ tagSegment
        (LatestDownloadLink "linux" "arm64" ⟨⟨"Guerrilla-Interactive", "ngo"⟩, "ngo"⟩ "release/1.0")
      ≠ "release/1.0" := by
  decide

/-- C2 (amended): when neither the version `w`, which does not start with
`v`, nor the binary name nor the platform pair contains `/`, the links built
from `v ++ w` and from `w` have the same filename segment (the text after the
last `/`), namely `binary_w_os_arch.tar.gz`, while the release-tag segment of
each link is the version as given (`v ++ w` and `w`); and only one character
is stripped: the link built from `vv ++ w` has the filename segment
`binary_vw_os_arch.tar.gz`. -/
theorem LatestDownloadLink_strips_one_v (os arch : String) (d : DownloadObject) (w : String)
    (hw : w.data.head? ≠ some 'v') (hslash : '/' ∉ w.data)
    (hb : '/' ∉ d.binary.data) (hos : '/' ∉ os.data) (harch : '/' ∉ arch.data) :
    filenameSegment (LatestDownloadLink os arch d ("v" ++ w))
      = filenameSegment (LatestDownloadLink os arch d w)
    ∧ filenameSegment (LatestDownloadLink os arch d w)
      = d.binary ++ "_" ++ w ++ "_" ++ os ++ "_" ++ arch ++ ".tar.gz"
    ∧ tagSegment (LatestDownloadLink os arch d ("v" ++ w)) = "v" ++ w
    ∧ tagSegment (LatestDownloadLink os arch d w) = w
    ∧ filenameSegment (LatestDownloadLink os arch d ("vv" ++ w))
      = d.binary ++ "_" ++ ("v" ++ w) ++ "_" ++ os ++ "_" ++ arch ++ ".tar.gz" := by
  have hvw : '/' ∉ ("v" ++ w).data := by simp [hslash]
  have hvvw : '/' ∉ ("vv" ++ w).data := by simp [hslash]
  have h1 : TrimPrefix ("v" ++ w) "v" = w := trimPrefix_v_append w
  have h2 : TrimPrefix w "v" = w := trimPrefix_not_v w hw
  have h3 : TrimPrefix ("vv" ++ w) "v" = "v" ++ w := by
    have : ("vv" ++ w) = "v" ++ ("v" ++ w) := by
      apply String.ext; simp
    rw [this, trimPrefix_v_append]
  refine ⟨?_, ?_, ?_, ?_, ?_⟩
  · rw [filenameSegment_link os arch d _ hb (by rw [h1]; exact hslash) hos harch,
      filenameSegment_link os arch d _ hb (by rw [h2]; exact hslash) hos harch, h1, h2]
  · rw [filenameSegment_link os arch d _ hb (by rw [h2]; exact hslash) hos harch, h2]
  · exact tagSegment_link os arch d _ hb hvw (by rw [h1]; exact hslash) hos harch
  · exact tagSegment_link os arch d _ hb hslash (by rw [h2]; exact hslash) hos harch
  · rw [filenameSegment_link os arch d _ hb (by rw [h3]; exact hvw) hos harch, h3]

/-- C2 (amended) at the version `1.1.0` of the binary `ngo` on `linux` /
`arm64`. -/
theorem LatestDownloadLink_strips_one_v_witness :
    "1.1.0".data.head? ≠ some 'v'
    ∧ '/' ∉ "1.1.0".data
    ∧ filenameSegment
        (LatestDownloadLink "linux" "arm64" ⟨⟨"Guerrilla-Interactive", "ngo"⟩, "ngo"⟩ ("v" ++ "1.1.0"))
      = filenameSegment
        (LatestDownloadLink "linux" "arm64" ⟨⟨"Guerrilla-Interactive", "ngo"⟩, "ngo"⟩ "1.1.0")
    ∧ filenameSegment
        (LatestDownloadLink "linux" "arm64" ⟨⟨"Guerrilla-Interactive", "ngo"⟩, "ngo"⟩ "1.1.0")
      = "ngo" ++ "_" ++ "1.1.0" ++ "_" ++ "linux" ++ "_" ++ "arm64" ++ ".tar.gz"
    ∧ tagSegment
        (LatestDownloadLink "linux" "arm64" ⟨⟨"Guerrilla-Interactive", "ngo"⟩, "ngo"⟩ ("v" ++ "1.1.0"))
      = "v" ++ "1.1.0"
    ∧ tagSegment
        (LatestDownloadLink "linux" "arm64" ⟨⟨"Guerrilla-Interactive", "ngo"⟩, "ngo"⟩ "1.1.0")
      = "1.1.0"
    ∧ filenameSegment
        (LatestDownloadLink "linux" "arm64" ⟨⟨"Guerrilla-Interactive", "ngo"⟩, "ngo"⟩ ("vv" ++ "1.1.0"))
      = "ngo" ++ "_" ++ ("v" ++ "1.1.0") ++ "_" ++ "linux" ++ "_" ++ "arm64" ++ ".tar.gz" :=
  ⟨by decide, by decide,
   LatestDownloadLink_strips_one_v "linux" "arm64" ⟨⟨"Guerrilla-Interactive", "ngo"⟩, "ngo"⟩
    "1.1.0" (by decide) (by decide) (by decide) (by decide) (by decide)⟩

/-! ## Lemmas on the decoder -/

theorem jsonFields_tagName (f : String × Field) (hmem : f ∈ jsonFields) (hf : f.2 = .TagName) :
    f.1 = "tag_name" := by
  simp [jsonFields] at hmem
  rcases hmem with h | h | h | h | h | h | h <;> subst h <;> simp_all

theorem jsonFields_fold_tagName (f : String × Field) (hmem : f ∈ jsonFields)
    (hf : foldName f.1 = foldName "tag_name") : f.2 = .TagName := by
  simp [jsonFields] at hmem
  rcases hmem with h | h | h | h | h | h | h <;> subst h <;> first | rfl | (exact absurd hf (by decide))

theorem findField_tagName_iff (key : String) :
    findField key = some .TagName ↔ foldName key = foldName "tag_name" := by
  constructor
  · intro h
    unfold findField at h
    split at h
    · rename_i f hfind
      have hmem := List.mem_of_find?_eq_some hfind
      have hp := List.find?_some hfind
      simp at h hp
      rw [← hp, jsonFields_tagName f hmem h]
    · rename_i hfind
      simp only [Option.map_eq_some'] at h
      obtain ⟨f, hfind2, hf⟩ := h
      have hmem := List.mem_of_find?_eq_some hfind2
      have hp := List.find?_some hfind2
      simp at hp
      rw [← hp, jsonFields_tagName f hmem hf]
  · intro h
    unfold findField
    split
    · rename_i f hfind
      have hmem := List.mem_of_find?_eq_some hfind
      have hp := List.find?_some hfind
      simp at hp
      rw [jsonFields_fold_tagName f hmem (by rw [hp, h])]
    · rw [h]; decide

theorem setString_TagName (r : ReleasesJSONResonse) (f : Field) (s : String) (hf : f ≠ .TagName) :
    (r.setString f s).TagName = r.TagName := by
  cases f <;> simp_all [ReleasesJSONResonse.setString]

theorem storeField_other (r : ReleasesJSONResonse) (name : String) (f : Field) (v : Value)
    (hf : f ≠ .TagName) : (storeField r name f v).1.TagName = r.TagName := by
  cases v <;> simp only [storeField]
  · split
    · split <;> rfl
    · rfl
  · split
    · rfl
    · exact setString_TagName r f _ hf

theorem storeField_tagName (r : ReleasesJSONResonse) (name t : String) :
    (storeField r name .TagName (.string t)).1.TagName = t := by
  simp [storeField, ReleasesJSONResonse.setString]

/-- Members whose keys all miss the field `TagName` leave it as it is. -/
theorem decodeMembers_no_tag (members : List (String × Value)) :
    ∀ (r : ReleasesJSONResonse) (err : Option DecodeError),
      (∀ k v, (k, v) ∈ members → foldName k ≠ foldName "tag_name") →
      (decodeMembers r err members).1.TagName = r.TagName := by
  induction members with
  | nil => intro r err _; rfl
  | cons m rest ih =>
    intro r err h
    obtain ⟨k, v⟩ := m
    have hk : findField k ≠ some .TagName := fun hc =>
      h k v (List.mem_cons_self _ _) ((findField_tagName_iff k).1 hc)
    have hrest : ∀ k v, (k, v) ∈ rest → foldName k ≠ foldName "tag_name" :=
      fun k v hm => h k v (List.mem_cons_of_mem _ hm)
    simp only [decodeMembers]
    split
    · exact ih r err hrest
    · rename_i f hf
      rw [ih _ _ hrest]
      exact storeField_other r k f v (fun hc => hk (by rw [hf, hc]))

/-- Members in which every key for the field `TagName` carries the text `t`
leave the field at `t` once it holds `t` or one such member is met. -/
theorem decodeMembers_tag (t : String) (members : List (String × Value)) :
    ∀ (r : ReleasesJSONResonse) (err : Option DecodeError),
      (∀ k v, (k, v) ∈ members → foldName k = foldName "tag_name" → v = .string t) →
      (r.TagName = t ∨ ∃ k, (k, Value.string t) ∈ members ∧ foldName k = foldName "tag_name") →
      (decodeMembers r err members).1.TagName = t := by
  induction members with
  | nil =>
    intro r err _ h
    rcases h with h | ⟨k, hk, _⟩
    · exact h
    · simp at hk
  | cons m rest ih =>
    intro r err hall h
    obtain ⟨k, v⟩ := m
    have hrest : ∀ k v, (k, v) ∈ rest → foldName k = foldName "tag_name" → v = .string t :=
      fun k v hm => hall k v (List.mem_cons_of_mem _ hm)
    simp only [decodeMembers]
    by_cases hk : foldName k = foldName "tag_name"
    · have hv : v = .string t := hall k v (List.mem_cons_self _ _) hk
      rw [(findField_tagName_iff k).2 hk]
      subst hv
      exact ih _ _ hrest (Or.inl (storeField_tagName r k t))
    · have hnot : findField k ≠ some .TagName := fun hc => hk ((findField_tagName_iff k).1 hc)
      have hstill : r.TagName = t ∨
          ∃ k, (k, Value.string t) ∈ rest ∧ foldName k = foldName "tag_name" := by
        rcases h with h | ⟨k2, hmem, hk2⟩
        · exact Or.inl h
        · rcases List.mem_cons.1 hmem with heq | hmem
          · simp only [Prod.mk.injEq] at heq
            exact absurd (heq.1 ▸ hk2) hk
          · exact Or.inr ⟨k2, hmem, hk2⟩
      split
      · exact ih r err hrest hstill
      · rename_i f hf
        apply ih _ _ hrest
        rcases hstill with h | h
        · left
          rw [storeField_other r k f v (fun hc => hnot (by rw [hf, hc]))]
          exact h
        · exact Or.inr h

/-- The result of `GetLatestVersionString` once the request and the read of
the body have succeeded: the tag decoded from the body, and a nil error. -/
theorem getLatestVersionString_ok (net : Network) (repo : Repo) (u : URL) (resp : Response)
    (body : String)
    (hparse : net.Parse ("https://github.com/" ++ repo.owner ++ "/" ++ repo.name
      ++ "/releases/latest") = .ok u)
    (hdo : net.Do ⟨"GET", u, [("Accept", ["application/json"])]⟩ = .ok resp)
    (hread : resp.Body = .ok body) :
    GetLatestVersionString net repo = ((Unmarshal body .zero).1.TagName, none) := by
  have hurl : Sprintf "https://github.com/%v/%v/releases/latest" [repo.owner, repo.name]
      = "https://github.com/" ++ repo.owner ++ "/" ++ repo.name ++ "/releases/latest" := by
    apply String.ext
    simp [Sprintf, sprintfLoop]
  simp only [GetLatestVersionString, hurl, hparse, hdo, hread]

/-! ## `GetLatestVersionString` -/

/-- C3, as stated, fails on an object that has the field `tag_name` and, after
it, a field whose name differs from `tag_name` only in letter case: the body
is a JSON object whose `tag_name` field is the string `v2.3.1`, and the
function returns `v0.0.1`, the value of the field `Tag_Name`, because
`json.Unmarshal` also accepts a key that matches a field name when letter
case is ignored. -/
theorem GetLatestVersionString_case_variant_after :
    scanJSON "\x7b\"tag_name\": \"v2.3.1\", \"Tag_Name\": \"v0.0.1\"\x7d"
      = some (.object [("tag_name", .string "v2.3.1"), ("Tag_Name", .string "v0.0.1")])
    ∧ GetLatestVersionString
        (Network.serving "\x7b\"tag_name\": \"v2.3.1\", \"Tag_Name\": \"v0.0.1\"\x7d")
        ⟨"Guerrilla-Interactive", "ngo"⟩
      = ("v0.0.1", none)
    ∧ GetLatestVersionString
        (Network.serving "\x7b\"tag_name\": \"v2.3.1\", \"Tag_Name\": \"v0.0.1\"\x7d")
        ⟨"Guerrilla-Interactive", "ngo"⟩
      ≠ ("v2.3.1", none) := by
  decide

/-- C3 (amended): for every tag `t`, when the address parses, the request and
the read of the body succeed, and the body is a JSON object that has a field
`tag_name` with the string `t` and in which every field whose name equals
`tag_name` when letter case is ignored holds the string `t`, the function
returns `t` and a nil error. -/
theorem GetLatestVersionString_returns_tag (net : Network) (repo : Repo) (u : URL)
    (resp : Response) (body : String) (members : List (String × Value)) (t : String)
    (hparse : net.Parse ("https://github.com/" ++ repo.owner ++ "/" ++ repo.name
      ++ "/releases/latest") = .ok u)
    (hdo : net.Do ⟨"GET", u, [("Accept", ["application/json"])]⟩ = .ok resp)
    (hread : resp.Body = .ok body)
    (hjson : scanJSON body = some (.object members))
    (htag : ("tag_name", Value.string t) ∈ members)
    (honly : ∀ k v, (k, v) ∈ members → foldName k = foldName "tag_name" → v = .string t) :
    GetLatestVersionString net repo = (t, none) := by
  rw [getLatestVersionString_ok net repo u resp body hparse hdo hread]
  simp only [Unmarshal, hjson]
  rw [decodeMembers_tag t members _ _ honly (Or.inr ⟨"tag_name", htag, rfl⟩)]

/-- C3 (amended) on the body of the scenario, an object with the one field
`tag_name` holding `v2.3.1`. -/
theorem GetLatestVersionString_returns_tag_witness :
    scanJSON "\x7b\"tag_name\": \"v2.3.1\"\x7d" = some (.object [("tag_name", .string "v2.3.1")])
    ∧ GetLatestVersionString (Network.serving "\x7b\"tag_name\": \"v2.3.1\"\x7d")
        ⟨"Guerrilla-Interactive", "ngo"⟩
      = ("v2.3.1", none) :=
  ⟨by decide,
   GetLatestVersionString_returns_tag (Network.serving "\x7b\"tag_name\": \"v2.3.1\"\x7d")
    ⟨"Guerrilla-Interactive", "ngo"⟩
    ⟨"https://github.com/Guerrilla-Interactive/ngo/releases/latest"⟩
    ⟨.ok "\x7b\"tag_name\": \"v2.3.1\"\x7d"⟩ "\x7b\"tag_name\": \"v2.3.1\"\x7d"
    [("tag_name", .string "v2.3.1")] "v2.3.1" rfl rfl rfl (by decide) (by decide)
    (by
      intro k v hmem _
      simp only [List.mem_singleton, Prod.mk.injEq] at hmem
      exact hmem.2)⟩

/-- C4: the code at a response without a release tag.  For the body
`Not Found`, which is not JSON, and for the body of an empty JSON object, the
request and the read succeed and the function returns the empty tag with a
nil error, although its comment promises a non-nil error when no release is
found. -/
theorem GetLatestVersionString_no_release_nil_error :
    GetLatestVersionString (Network.serving "Not Found") ⟨"Guerrilla-Interactive", "ngo"⟩
      = ("", none)
    ∧ GetLatestVersionString (Network.serving "\x7b\x7d") ⟨"Guerrilla-Interactive", "ngo"⟩
      = ("", none) := by
  decide

/-- C5, as stated, fails on an object whose only field is named `TAG_NAME`:
the body is a JSON object with no field `tag_name`, and the function returns
`v2.3.1`, not the empty string. -/
theorem GetLatestVersionString_case_variant_only :
    scanJSON "\x7b\"TAG_NAME\": \"v2.3.1\"\x7d" = some (.object [("TAG_NAME", .string "v2.3.1")])
    ∧ (∀ v, ("tag_name", v) ∉ [("TAG_NAME", Value.string "v2.3.1")])
    ∧ GetLatestVersionString (Network.serving "\x7b\"TAG_NAME\": \"v2.3.1\"\x7d")
        ⟨"Guerrilla-Interactive", "ngo"⟩
      = ("v2.3.1", none) := by
  refine ⟨by decide, ?_, by decide⟩
  intro v h
  simp only [List.mem_singleton, Prod.mk.injEq] at h
  exact absurd h.1 (by decide)

/-- C5 (amended): when the address parses and the request and the read of the
body succeed, and the body is not well-formed JSON, or is a JSON object with
no field whose name equals `tag_name` when letter case is ignored, the
function returns the empty string and a nil error; for a body that is not
well-formed JSON `json.Unmarshal` did return a syntax error, which is
dropped. -/
theorem GetLatestVersionString_decode_failure_tolerated (net : Network) (repo : Repo) (u : URL)
    (resp : Response) (body : String)
    (hparse : net.Parse ("https://github.com/" ++ repo.owner ++ "/" ++ repo.name
      ++ "/releases/latest") = .ok u)
    (hdo : net.Do ⟨"GET", u, [("Accept", ["application/json"])]⟩ = .ok resp)
    (hread : resp.Body = .ok body)
    (hbad : scanJSON body = none ∨
      ∃ members, scanJSON body = some (.object members) ∧
        ∀ k v, (k, v) ∈ members → foldName k ≠ foldName "tag_name") :
    GetLatestVersionString net repo = ("", none)
    ∧ (scanJSON body = none → (Unmarshal body .zero).2 = some .syntaxError) := by
  constructor
  · rw [getLatestVersionString_ok net repo u resp body hparse hdo hread]
    rcases hbad with h | ⟨members, h, hno⟩
    · simp only [Unmarshal, h]
      rfl
    · simp only [Unmarshal, h]
      rw [decodeMembers_no_tag members _ _ hno]
      rfl
  · intro h
    simp only [Unmarshal, h]

/-- C5 (amended) on the body `Not Found`, which is not JSON, and on an object
that only has the field `message`. -/
theorem GetLatestVersionString_decode_failure_tolerated_witness :
    (scanJSON "Not Found" = none
      ∧ GetLatestVersionString (Network.serving "Not Found") ⟨"Guerrilla-Interactive", "ngo"⟩
        = ("", none)
      ∧ (Unmarshal "Not Found" .zero).2 = some .syntaxError)
    ∧ (scanJSON "\x7b\"message\": \"Not Found\"\x7d"
        = some (.object [("message", .string "Not Found")])
      ∧ GetLatestVersionString (Network.serving "\x7b\"message\": \"Not Found\"\x7d")
          ⟨"Guerrilla-Interactive", "ngo"⟩
        = ("", none)) :=
  ⟨⟨by decide,
    (GetLatestVersionString_decode_failure_tolerated (Network.serving "Not Found")
      ⟨"Guerrilla-Interactive", "ngo"⟩
      ⟨"https://github.com/Guerrilla-Interactive/ngo/releases/latest"⟩
      ⟨.ok "Not Found"⟩ "Not Found" rfl rfl rfl (Or.inl (by decide))).1,
    (GetLatestVersionString_decode_failure_tolerated (Network.serving "Not Found")
      ⟨"Guerrilla-Interactive", "ngo"⟩
      ⟨"https://github.com/Guerrilla-Interactive/ngo/releases/latest"⟩
      ⟨.ok "Not Found"⟩ "Not Found" rfl rfl rfl (Or.inl (by decide))).2 (by decide)⟩,
   ⟨by decide,
    (GetLatestVersionString_decode_failure_tolerated
      (Network.serving "\x7b\"message\": \"Not Found\"\x7d")
      ⟨"Guerrilla-Interactive", "ngo"⟩
      ⟨"https://github.com/Guerrilla-Interactive/ngo/releases/latest"⟩
      ⟨.ok "\x7b\"message\": \"Not Found\"\x7d"⟩ "\x7b\"message\": \"Not Found\"\x7d"
      rfl rfl rfl
      (Or.inr ⟨[("message", .string "Not Found")], by decide, by
        intro k v hmem
        simp only [List.mem_singleton, Prod.mk.injEq] at hmem
        rw [hmem.1]
        decide⟩)).1⟩⟩

/-! ## Lemmas on the filesystem and the extraction loop -/

theorem set_same (fs : FileSystem) (name : String) (node : Node) :
    fs.set name node name = some node := by
  simp [FileSystem.set]

theorem set_other (fs : FileSystem) (name n : String) (node : Node) (h : n ≠ name) :
    fs.set name node n = fs n := by
  simp [FileSystem.set, h]

/-- What a directory entry does when it is applied without error. -/
theorem applyEntry_dir (fs fs1 : FileSystem) (e : Entry) (hdir : e.header.Typeflag = TypeDir)
    (hok : applyEntry fs e = .ok fs1) :
    fs e.header.Name = none ∧ fs1 = fs.set e.header.Name (.dir 0o755) := by
  unfold applyEntry at hok
  rw [if_pos hdir] at hok
  simp only [Mkdir] at hok
  cases h : fs e.header.Name with
  | none =>
    rw [h] at hok
    simp only [Except.ok.injEq] at hok
    exact ⟨rfl, hok.symm⟩
  | some node =>
    rw [h] at hok
    simp at hok

/-- What a regular-file entry does when it is applied without error. -/
theorem applyEntry_reg (fs fs1 : FileSystem) (e : Entry) (hreg : e.header.Typeflag = TypeReg)
    (hok : applyEntry fs e = .ok fs1) :
    (∃ perm, fs1 e.header.Name = some (.file perm e.payload))
    ∧ ∀ n, n ≠ e.header.Name → fs1 n = fs n := by
  have hnd : e.header.Typeflag ≠ TypeDir := by rw [hreg]; decide
  unfold applyEntry at hok
  rw [if_neg hnd, if_pos hreg] at hok
  simp only [Create] at hok
  cases h : fs e.header.Name with
  | none =>
    rw [h] at hok
    simp only [Write, set_same] at hok
    cases hr : e.readErr with
    | some err => rw [hr] at hok; simp at hok
    | none =>
      rw [hr] at hok
      simp only [Except.ok.injEq] at hok
      subst hok
      refine ⟨⟨0o666, by simp [set_same]⟩, ?_⟩
      intro n hn
      simp [set_other _ _ _ _ hn]
  | some node =>
    rw [h] at hok
    cases node with
    | dir perm => simp at hok
    | file perm content =>
      simp only [Write, set_same] at hok
      cases hr : e.readErr with
      | some err => rw [hr] at hok; simp at hok
      | none =>
        rw [hr] at hok
        simp only [Except.ok.injEq] at hok
        subst hok
        refine ⟨⟨perm, by simp [set_same]⟩, ?_⟩
        intro n hn
        simp [set_other _ _ _ _ hn]

/-- An entry that is applied without error is a directory or a regular file. -/
theorem applyEntry_kind (fs fs1 : FileSystem) (e : Entry) (hok : applyEntry fs e = .ok fs1) :
    e.header.Typeflag = TypeDir ∨ e.header.Typeflag = TypeReg := by
  by_cases hd : e.header.Typeflag = TypeDir
  · exact Or.inl hd
  · by_cases hr : e.header.Typeflag = TypeReg
    · exact Or.inr hr
    · simp [applyEntry, hd, hr] at hok

/-- An entry of another type is fatal and leaves the state as it is. -/
theorem applyEntry_unknown (fs : FileSystem) (e : Entry) (hd : e.header.Typeflag ≠ TypeDir)
    (hr : e.header.Typeflag ≠ TypeReg) :
    applyEntry fs e = .error (Sprintf "ExtractTarGz: uknown type: %v in %v"
      [toString e.header.Typeflag, e.header.Name], fs) := by
  simp [applyEntry, hd, hr]

/-- A directory entry on a taken name is fatal and leaves the state as it is. -/
theorem applyEntry_dir_taken (fs : FileSystem) (e : Entry) (hdir : e.header.Typeflag = TypeDir)
    (htaken : fs e.header.Name ≠ none) :
    applyEntry fs e = .error (Sprintf "ExtractTarGz: Mkdir() failed: %s"
      [Sprintf "mkdir %v: file exists" [e.header.Name]], fs) := by
  unfold applyEntry
  rw [if_pos hdir]
  simp only [Mkdir]
  cases h : fs e.header.Name with
  | none => exact absurd h htaken
  | some node => rfl

/-- A name that is taken stays taken when an entry is applied. -/
theorem applyEntry_keeps (fs fs1 : FileSystem) (e : Entry) (n : String)
    (hok : applyEntry fs e = .ok fs1) (hn : fs n ≠ none) : fs1 n ≠ none := by
  rcases applyEntry_kind fs fs1 e hok with hd | hr
  · obtain ⟨_, hfs⟩ := applyEntry_dir fs fs1 e hd hok
    subst hfs
    by_cases h : n = e.header.Name
    · subst h; simp [set_same]
    · rw [set_other _ _ _ _ h]; exact hn
  · obtain ⟨⟨perm, hp⟩, hrest⟩ := applyEntry_reg fs fs1 e hr hok
    by_cases h : n = e.header.Name
    · subst h; rw [hp]; simp
    · rw [hrest n h]; exact hn

/-- The name of an entry is taken once the entry is applied. -/
theorem applyEntry_takes (fs fs1 : FileSystem) (e : Entry) (hok : applyEntry fs e = .ok fs1) :
    fs1 e.header.Name ≠ none := by
  rcases applyEntry_kind fs fs1 e hok with hd | hr
  · obtain ⟨_, hfs⟩ := applyEntry_dir fs fs1 e hd hok
    subst hfs
    simp [set_same]
  · obtain ⟨⟨perm, hp⟩, _⟩ := applyEntry_reg fs fs1 e hr hok
    rw [hp]; simp

/-- The loop over a sequence that starts with entries applied without error
goes on from the state they reach. -/
theorem extractLoop_append (nextErr : Option String) (p es : List Entry) :
    ∀ fs0 fs1 : FileSystem, applyAll fs0 p = some fs1 →
      extractLoop nextErr (p ++ es) fs0 = extractLoop nextErr es fs1 := by
  induction p with
  | nil =>
    intro fs0 fs1 h
    simp only [applyAll, Option.some.injEq] at h
    subst h
    rfl
  | cons e p ih =>
    intro fs0 fs1 h
    simp only [applyAll] at h
    simp only [List.cons_append, extractLoop]
    cases ha : applyEntry fs0 e with
    | error err => rw [ha] at h; simp at h
    | ok fs => rw [ha] at h; exact ih fs fs1 h

/-- The loop returns exactly when every entry is applied without error and
the sequence ends with `io.EOF`. -/
theorem extractLoop_returned_iff (es : List Entry) :
    ∀ fs0 fs1 : FileSystem,
      extractLoop none es fs0 = .returned fs1 ↔ applyAll fs0 es = some fs1 := by
  induction es with
  | nil =>
    intro fs0 fs1
    simp [extractLoop, applyAll]
  | cons e es ih =>
    intro fs0 fs1
    simp only [extractLoop, applyAll]
    cases ha : applyEntry fs0 e with
    | error err => obtain ⟨msg, fs⟩ := err; simp
    | ok fs => exact ih fs fs1

/-- A failing `Next()` never lets the loop return. -/
theorem extractLoop_nextErr (err : String) (es : List Entry) :
    ∀ fs0 : FileSystem, (extractLoop (some err) es fs0).isReturned = false := by
  induction es with
  | nil => intro fs0; rfl
  | cons e es ih =>
    intro fs0
    simp only [extractLoop]
    cases ha : applyEntry fs0 e with
    | error e2 => obtain ⟨msg, fs⟩ := e2; rfl
    | ok fs => exact ih fs

/-- Names that are taken stay taken along a sequence of entries. -/
theorem applyAll_keeps (es : List Entry) (n : String) :
    ∀ fs0 fs1 : FileSystem, applyAll fs0 es = some fs1 → fs0 n ≠ none → fs1 n ≠ none := by
  induction es with
  | nil =>
    intro fs0 fs1 h hn
    simp only [applyAll, Option.some.injEq] at h
    subst h; exact hn
  | cons e es ih =>
    intro fs0 fs1 h hn
    simp only [applyAll] at h
    cases ha : applyEntry fs0 e with
    | error err => rw [ha] at h; simp at h
    | ok fs =>
      rw [ha] at h
      exact ih fs fs1 h (applyEntry_keeps fs0 fs e n ha hn)

/-- After a sequence of entries the name of each of them is taken. -/
theorem applyAll_takes (es : List Entry) (e : Entry) :
    ∀ fs0 fs1 : FileSystem, applyAll fs0 es = some fs1 → e ∈ es → fs1 e.header.Name ≠ none := by
  induction es with
  | nil => intro fs0 fs1 _ hmem; simp at hmem
  | cons x es ih =>
    intro fs0 fs1 h hmem
    simp only [applyAll] at h
    cases ha : applyEntry fs0 x with
    | error err => rw [ha] at h; simp at h
    | ok fs =>
      rw [ha] at h
      rcases List.mem_cons.1 hmem with heq | hmem
      · subst heq
        exact applyAll_keeps es _ fs fs1 h (applyEntry_takes fs0 fs e ha)
      · exact ih fs fs1 h hmem

/-- A sequence with a directory entry whose name is taken cannot be applied
without error. -/
theorem applyAll_dir_taken (es : List Entry) (e : Entry) (hdir : e.header.Typeflag = TypeDir) :
    ∀ fs0 : FileSystem, e ∈ es → fs0 e.header.Name ≠ none → applyAll fs0 es = none := by
  induction es with
  | nil => intro fs0 hmem; simp at hmem
  | cons x es ih =>
    intro fs0 hmem hn
    simp only [applyAll]
    cases ha : applyEntry fs0 x with
    | error err => rfl
    | ok fs =>
      rcases List.mem_cons.1 hmem with heq | hmem
      · subst heq
        rw [applyEntry_dir_taken fs0 e hdir hn] at ha
        simp at ha
      · exact ih fs hmem (applyEntry_keeps fs0 fs x _ ha hn)

theorem lastPayload_cons (n : String) (e : Entry) (es : List Entry) :
    lastPayload n (e :: es) =
      match lastPayload n es with
      | some d => some d
      | none => if e.header.Typeflag = TypeReg ∧ e.header.Name = n then some e.payload else none := by
  unfold lastPayload
  rw [List.filter_cons]
  by_cases h : e.header.Typeflag = TypeReg ∧ e.header.Name = n
  · simp only [h, and_self, decide_True, if_true, List.getLast?_cons]
    cases (List.filter (fun e => decide (e.header.Typeflag = TypeReg ∧ e.header.Name = n)) es).getLast? <;> rfl
  · simp only [h, decide_False, Bool.false_eq_true, if_false]
    generalize Option.map (fun e => e.payload) (List.filter
      (fun e => decide (e.header.Typeflag = TypeReg ∧ e.header.Name = n)) es).getLast? = o
    cases o <;> rfl

theorem lastPayload_of_mem (e : Entry) (es : List Entry) (hmem : e ∈ es)
    (hreg : e.header.Typeflag = TypeReg) : ∃ d, lastPayload e.header.Name es = some d := by
  unfold lastPayload
  have hin : e ∈ es.filter (fun x => x.header.Typeflag = TypeReg ∧ x.header.Name = e.header.Name) := by
    simp [List.mem_filter, hmem, hreg]
  cases hl : (es.filter
      (fun x => decide (x.header.Typeflag = TypeReg ∧ x.header.Name = e.header.Name))).getLast? with
  | none =>
    rw [List.getLast?_eq_none_iff] at hl
    rw [hl] at hin
    simp at hin
  | some x => exact ⟨x.payload, rfl⟩

/-- Along a sequence applied without error, a name written by a regular-file
entry ends with the payload of the last such entry, and a taken name that no
regular-file entry writes keeps what it holds. -/
theorem applyAll_lastPayload (n : String) (es : List Entry) :
    ∀ fs0 fs1 : FileSystem, applyAll fs0 es = some fs1 →
      (∀ d, lastPayload n es = some d → ∃ perm, fs1 n = some (.file perm d))
      ∧ (lastPayload n es = none → fs0 n ≠ none → fs1 n = fs0 n) := by
  induction es with
  | nil =>
    intro fs0 fs1 h
    simp only [applyAll, Option.some.injEq] at h
    subst h
    simp [lastPayload]
  | cons e es ih =>
    intro fs0 fs1 h
    simp only [applyAll] at h
    cases ha : applyEntry fs0 e with
    | error err => rw [ha] at h; simp at h
    | ok fs =>
      rw [ha] at h
      obtain ⟨ih1, ih2⟩ := ih fs fs1 h
      rw [lastPayload_cons]
      cases hl : lastPayload n es with
      | some d0 =>
        refine ⟨fun d hd => ?_, fun hc => by simp at hc⟩
        simp only [Option.some.injEq] at hd
        subst hd
        exact ih1 d0 hl
      | none =>
        by_cases hm : e.header.Typeflag = TypeReg ∧ e.header.Name = n
        · simp only [hm, and_self, if_true]
          refine ⟨fun d hd => ?_, fun hc => by simp at hc⟩
          simp only [Option.some.injEq] at hd
          subst hd
          obtain ⟨⟨perm, hp⟩, _⟩ := applyEntry_reg fs0 fs e hm.1 ha
          rw [hm.2] at hp
          refine ⟨perm, ?_⟩
          rw [ih2 hl (by rw [hp]; simp), hp]
        · simp only [hm, if_false]
          refine ⟨fun d hd => by simp at hd, fun _ hn => ?_⟩
          have hkeep : fs n = fs0 n := by
            rcases applyEntry_kind fs0 fs e ha with hd | hr
            · obtain ⟨hfree, hfs⟩ := applyEntry_dir fs0 fs e hd ha
              have hne : n ≠ e.header.Name := fun hc => hn (by rw [hc]; exact hfree)
              rw [hfs, set_other _ _ _ _ hne]
            · obtain ⟨_, hrest⟩ := applyEntry_reg fs0 fs e hr ha
              exact hrest n (fun hc => hm ⟨hr, hc.symm⟩)
          rw [ih2 hl (by rw [hkeep]; exact hn), hkeep]

theorem applyAll_append (p es : List Entry) :
    ∀ fs0 fs1 : FileSystem, applyAll fs0 p = some fs1 →
      applyAll fs0 (p ++ es) = applyAll fs1 es := by
  induction p with
  | nil =>
    intro fs0 fs1 h
    simp only [applyAll, Option.some.injEq] at h
    subst h
    rfl
  | cons e p ih =>
    intro fs0 fs1 h
    simp only [applyAll] at h
    simp only [List.cons_append, applyAll]
    cases ha : applyEntry fs0 e with
    | error err => rw [ha] at h; simp at h
    | ok fs => rw [ha] at h; exact ih fs fs1 h

/-! ## `ExtractTarGz` -/

/-- C6: when `gzip.NewReader` rejects the first bytes of the stream, whatever
the rest of the stream and the initial filesystem state are, `ExtractTarGz`
ends with the fatal error `ExtractTarGz: NewReader failed`, and the filesystem
state at that point is the initial state: nothing has been created. -/
theorem ExtractTarGz_invalid_framing (err : String) (entries : List Entry)
    (nextErr : Option String) (fs : FileSystem) :
    ExtractTarGz ⟨some err, entries, nextErr⟩ fs = .fatal "ExtractTarGz: NewReader failed" fs
    ∧ (ExtractTarGz ⟨some err, entries, nextErr⟩ fs).isReturned = false
    ∧ (ExtractTarGz ⟨some err, entries, nextErr⟩ fs).fs = fs :=
  ⟨rfl, rfl, rfl⟩

/-- C7: for an archive whose entries are `p ++ [e] ++ rest`, where the entries
of `p` are applied without error (so each is a directory or a regular file)
and reach the state `fs1`, and `e` is neither a directory nor a regular file,
`ExtractTarGz` ends at `e` with the fatal error that names the type and the
name of `e`, and the state at that point is `fs1`: the entries of `p` are
applied, in order, and stay applied, and no entry of `rest` is applied. -/
theorem ExtractTarGz_unsupported_entry (p rest : List Entry) (e : Entry)
    (nextErr : Option String) (fs0 fs1 : FileSystem)
    (hp : applyAll fs0 p = some fs1)
    (hdir : e.header.Typeflag ≠ TypeDir) (hreg : e.header.Typeflag ≠ TypeReg) :
    ExtractTarGz ⟨none, p ++ e :: rest, nextErr⟩ fs0 =
      .fatal (Sprintf "ExtractTarGz: uknown type: %v in %v"
        [toString e.header.Typeflag, e.header.Name]) fs1 := by
  simp only [ExtractTarGz]
  rw [extractLoop_append nextErr p (e :: rest) fs0 fs1 hp]
  simp only [extractLoop, applyEntry_unknown fs1 e hdir hreg]

/-- C7 on an archive with a directory, a regular file, a symbolic link (type
`'2'`, the byte 50) and one more regular file, extracted into the empty
filesystem: the directory and the first file are there, the last file is
not. -/
theorem ExtractTarGz_unsupported_entry_witness :
    applyAll FileSystem.empty
        [⟨⟨TypeDir, "docs"⟩, [], none⟩, ⟨⟨TypeReg, "ngo"⟩, [127, 69, 76, 70], none⟩]
      = some (((FileSystem.empty.set "docs" (.dir 0o755)).set "ngo" (.file 0o666 [])).set "ngo"
          (.file 0o666 [127, 69, 76, 70]))
    ∧ ExtractTarGz
        ⟨none, [⟨⟨TypeDir, "docs"⟩, [], none⟩, ⟨⟨TypeReg, "ngo"⟩, [127, 69, 76, 70], none⟩]
          ++ ⟨⟨50, "latest"⟩, [], none⟩ :: [⟨⟨TypeReg, "README.md"⟩, [35], none⟩], none⟩
        FileSystem.empty
      = .fatal "ExtractTarGz: uknown type: 50 in latest"
          (((FileSystem.empty.set "docs" (.dir 0o755)).set "ngo" (.file 0o666 [])).set "ngo"
            (.file 0o666 [127, 69, 76, 70])) :=
  ⟨rfl,
   ExtractTarGz_unsupported_entry
    [⟨⟨TypeDir, "docs"⟩, [], none⟩, ⟨⟨TypeReg, "ngo"⟩, [127, 69, 76, 70], none⟩]
    [⟨⟨TypeReg, "README.md"⟩, [35], none⟩] ⟨⟨50, "latest"⟩, [], none⟩ none FileSystem.empty
    (((FileSystem.empty.set "docs" (.dir 0o755)).set "ngo" (.file 0o666 [])).set "ngo"
      (.file 0o666 [127, 69, 76, 70]))
    rfl (by decide) (by decide)⟩

/-- C8: for a stream with valid framing that ends with `io.EOF` and whose
entries are all applied without error (so each is a directory or a regular
file whose payload is read in full and whose filesystem operation succeeds),
reaching the state `fs1`, `ExtractTarGz` returns with the state `fs1`, the
result of applying every entry in stream order, and in `fs1` the name of each
regular-file entry holds a file whose content is exactly the payload of the
last regular-file entry with that name. -/
theorem ExtractTarGz_applies_all (s : ArchiveStream) (fs0 fs1 : FileSystem)
    (hgz : s.newReaderErr = none) (hend : s.nextErr = none)
    (hall : applyAll fs0 s.entries = some fs1) :
    ExtractTarGz s fs0 = .returned fs1
    ∧ ∀ e ∈ s.entries, e.header.Typeflag = TypeReg →
        ∃ perm data, lastPayload e.header.Name s.entries = some data
          ∧ fs1 e.header.Name = some (.file perm data) := by
  constructor
  · simp only [ExtractTarGz, hgz, hend]
    exact (extractLoop_returned_iff s.entries fs0 fs1).2 hall
  · intro e hmem hreg
    obtain ⟨d, hd⟩ := lastPayload_of_mem e s.entries hmem hreg
    obtain ⟨perm, hperm⟩ := (applyAll_lastPayload e.header.Name s.entries fs0 fs1 hall).1 d hd
    exact ⟨perm, d, hd, hperm⟩

/-- C8 on an archive with a directory and two regular-file entries of the
same name, extracted where that name already holds a longer file: the file
ends with the payload of the second entry and nothing else. -/
theorem ExtractTarGz_applies_all_witness :
    ExtractTarGz
        ⟨none, [⟨⟨TypeDir, "docs"⟩, [], none⟩, ⟨⟨TypeReg, "ngo"⟩, [1, 2], none⟩,
          ⟨⟨TypeReg, "ngo"⟩, [3], none⟩], none⟩
        (FileSystem.empty.set "ngo" (.file 0o755 [9, 9, 9, 9]))
      = .returned ((((((FileSystem.empty.set "ngo" (.file 0o755 [9, 9, 9, 9])).set "docs"
          (.dir 0o755)).set "ngo" (.file 0o755 [])).set "ngo" (.file 0o755 [1, 2])).set "ngo"
          (.file 0o755 [])).set "ngo" (.file 0o755 [3]))
    ∧ (∀ e ∈ [(⟨⟨TypeDir, "docs"⟩, [], none⟩ : Entry), ⟨⟨TypeReg, "ngo"⟩, [1, 2], none⟩,
          ⟨⟨TypeReg, "ngo"⟩, [3], none⟩], e.header.Typeflag = TypeReg →
        ∃ perm data,
          lastPayload e.header.Name [⟨⟨TypeDir, "docs"⟩, [], none⟩,
            ⟨⟨TypeReg, "ngo"⟩, [1, 2], none⟩, ⟨⟨TypeReg, "ngo"⟩, [3], none⟩] = some data
          ∧ (((((FileSystem.empty.set "ngo" (.file 0o755 [9, 9, 9, 9])).set "docs"
            (.dir 0o755)).set "ngo" (.file 0o755 [])).set "ngo" (.file 0o755 [1, 2])).set "ngo"
            (.file 0o755 [])).set "ngo" (.file 0o755 [3]) e.header.Name
            = some (.file perm data))
    ∧ lastPayload "ngo" [⟨⟨TypeDir, "docs"⟩, [], none⟩, ⟨⟨TypeReg, "ngo"⟩, [1, 2], none⟩,
        ⟨⟨TypeReg, "ngo"⟩, [3], none⟩] = some [3] :=
  ⟨(ExtractTarGz_applies_all
      ⟨none, [⟨⟨TypeDir, "docs"⟩, [], none⟩, ⟨⟨TypeReg, "ngo"⟩, [1, 2], none⟩,
        ⟨⟨TypeReg, "ngo"⟩, [3], none⟩], none⟩
      (FileSystem.empty.set "ngo" (.file 0o755 [9, 9, 9, 9])) _ rfl rfl rfl).1,
   (ExtractTarGz_applies_all
      ⟨none, [⟨⟨TypeDir, "docs"⟩, [], none⟩, ⟨⟨TypeReg, "ngo"⟩, [1, 2], none⟩,
        ⟨⟨TypeReg, "ngo"⟩, [3], none⟩], none⟩
      (FileSystem.empty.set "ngo" (.file 0o755 [9, 9, 9, 9])) _ rfl rfl rfl).2,
   by decide⟩

/-- C9: for a directory entry `e` that follows entries `p` applied without
error up to the state `fs1`: when the name of `e` is free in `fs1`, applying
`e` makes a directory with permission bits `0o755` at that name; when the
name is taken, by a directory or by a file, `ExtractTarGz` ends at `e` with
the fatal error of `Mkdir`, in the state `fs1`; and when the extraction of an
archive that contains `e` has returned, extracting the same archive again
into the state it left does not return: it ends with a fatal error. -/
theorem ExtractTarGz_directory_entry (p rest : List Entry) (e : Entry)
    (nextErr : Option String) (fs0 fs1 : FileSystem)
    (hdir : e.header.Typeflag = TypeDir) (hp : applyAll fs0 p = some fs1) :
    (fs1 e.header.Name = none →
      applyAll fs0 (p ++ [e]) = some (fs1.set e.header.Name (.dir 0o755)))
    ∧ (fs1 e.header.Name ≠ none →
      ExtractTarGz ⟨none, p ++ e :: rest, nextErr⟩ fs0 =
        .fatal (Sprintf "ExtractTarGz: Mkdir() failed: %s"
          [Sprintf "mkdir %v: file exists" [e.header.Name]]) fs1)
    ∧ (∀ fs2, ExtractTarGz ⟨none, p ++ e :: rest, nextErr⟩ fs0 = .returned fs2 →
      (ExtractTarGz ⟨none, p ++ e :: rest, nextErr⟩ fs2).isReturned = false) := by
  refine ⟨?_, ?_, ?_⟩
  · intro hfree
    rw [applyAll_append p [e] fs0 fs1 hp]
    simp only [applyAll]
    unfold applyEntry
    rw [if_pos hdir]
    simp only [Mkdir, hfree]
  · intro htaken
    simp only [ExtractTarGz]
    rw [extractLoop_append nextErr p (e :: rest) fs0 fs1 hp]
    simp only [extractLoop, applyEntry_dir_taken fs1 e hdir htaken]
  · intro fs2 hret
    simp only [ExtractTarGz] at hret ⊢
    cases nextErr with
    | some err => exact extractLoop_nextErr err _ fs2
    | none =>
      have hall := (extractLoop_returned_iff _ fs0 fs2).1 hret
      have hmem : e ∈ p ++ e :: rest := by simp
      have htaken := applyAll_takes _ e fs0 fs2 hall hmem
      have hnone := applyAll_dir_taken _ e hdir fs2 hmem htaken
      cases hout : extractLoop none (p ++ e :: rest) fs2 with
      | returned fs3 =>
        rw [(extractLoop_returned_iff _ fs2 fs3).1 hout] at hnone
        simp at hnone
      | fatal msg fs3 => rfl

/-- C9 on the archive made of the directory `docs` and the file `docs/a`:
extracted into the empty filesystem the directory is made with bits `0o755`
and a second extraction fails; extracted where `docs` is a file the
extraction fails at the directory entry and changes nothing. -/
theorem ExtractTarGz_directory_entry_witness :
    applyAll FileSystem.empty ([] ++ [⟨⟨TypeDir, "docs"⟩, [], none⟩])
      = some (FileSystem.empty.set "docs" (.dir 0o755))
    ∧ ExtractTarGz
        ⟨none, [] ++ ⟨⟨TypeDir, "docs"⟩, [], none⟩ :: [⟨⟨TypeReg, "docs/a"⟩, [7], none⟩], none⟩
        (FileSystem.empty.set "docs" (.file 0o644 []))
      = .fatal "ExtractTarGz: Mkdir() failed: mkdir docs: file exists"
          (FileSystem.empty.set "docs" (.file 0o644 []))
    ∧ (ExtractTarGz
        ⟨none, [] ++ ⟨⟨TypeDir, "docs"⟩, [], none⟩ :: [⟨⟨TypeReg, "docs/a"⟩, [7], none⟩], none⟩
        (((FileSystem.empty.set "docs" (.dir 0o755)).set "docs/a" (.file 0o666 [])).set "docs/a"
          (.file 0o666 [7]))).isReturned = false :=
  ⟨(ExtractTarGz_directory_entry [] [⟨⟨TypeReg, "docs/a"⟩, [7], none⟩]
      ⟨⟨TypeDir, "docs"⟩, [], none⟩ none FileSystem.empty FileSystem.empty rfl rfl).1 rfl,
   (ExtractTarGz_directory_entry [] [⟨⟨TypeReg, "docs/a"⟩, [7], none⟩]
      ⟨⟨TypeDir, "docs"⟩, [], none⟩ none (FileSystem.empty.set "docs" (.file 0o644 []))
      (FileSystem.empty.set "docs" (.file 0o644 [])) rfl rfl).2.1 (by decide),
   (ExtractTarGz_directory_entry [] [⟨⟨TypeReg, "docs/a"⟩, [7], none⟩]
      ⟨⟨TypeDir, "docs"⟩, [], none⟩ none FileSystem.empty FileSystem.empty rfl rfl).2.2
      (((FileSystem.empty.set "docs" (.dir 0o755)).set "docs/a" (.file 0o666 [])).set "docs/a"
        (.file 0o666 [7])) rfl⟩

/-- C10: for every initial filesystem state, extracting a stream with valid
framing that holds no entry and ends with `io.EOF` returns without error, and
the final state is the initial state. -/
theorem ExtractTarGz_empty_archive (fs : FileSystem) :
    ExtractTarGz ⟨none, [], none⟩ fs = .returned fs
    ∧ (ExtractTarGz ⟨none, [], none⟩ fs).isReturned = true
    ∧ (ExtractTarGz ⟨none, [], none⟩ fs).fs = fs :=
  ⟨rfl, rfl, rfl⟩

end GoGithubDownload
